import Mathlib

/-!
Formal model of the in-memory graph container and disjoint batching layer of
this repository (`kgcnn/data/base.py` and `kgcnn/io/loader.py`).

Modelling conventions.  Python dictionaries are association lists over
`String` keys kept in insertion order (`Dict`).  Numpy arrays are Lean lists;
the element type is left polymorphic where the python code is generic, so the
`np.array` cast performed on assignment is the identity in the model.  Index
entries are `Nat` (the arrays hold non-negative `int64` node ids; overflow is
unreachable for in-memory graphs and is not modelled).  Methods that can raise
are modelled with `Except`; the `error` payload carries the state of the
object at the moment the exception is raised, which makes "raised before any
mutation" provable.  Calls to the logger or `print` are side-effect-free for
the stored data and are not modelled.
-/

/-- Python `dict` with `String` keys, as an association list in insertion
order.  Keys are unique (every write goes through `dset`). -/
abbrev Dict (α : Type) := List (String × α)

/-- Lookup in an association list: the first binding wins. -/
def dget {κ α : Type} [DecidableEq κ] : List (κ × α) → κ → Option α
  | [], _ => none
  | (k, v) :: t, q => if k = q then some v else dget t q

/-- Python `d[k] = v` / `d.update({k: v})`: overwrite the existing binding in
place, else append a new binding at the end (python dicts keep insertion
order and keep the original position of an overwritten key). -/
def dset {κ α : Type} [DecidableEq κ] : List (κ × α) → κ → α → List (κ × α)
  | [], q, v => [(q, v)]
  | (k, w) :: t, q, v => if k = q then (q, v) :: t else (k, w) :: dset t q v

/-- `NumpyContainer.assign_property` (base.py lines 37-39): store the value
under the key unless the value is `None`. -/
def NumpyContainer.assign_property {α : Type} (d : Dict α) (key : String) (value : Option α) :
    Dict α :=
  match value with
  | none => d
  | some v => dset d key v

/-- Python `key in d` for an association-list dict: the key has a binding. -/
def hasKey {α : Type} (d : Dict α) (k : String) : Bool :=
  (dget d k).isSome

/-- `NumpyContainer.obtain_property` (base.py lines 41-43): return the stored
value if the key is in the dict, otherwise fall through to python's implicit
`return None`.  Total function: it never raises. -/
def NumpyContainer.obtain_property {α : Type} (d : Dict α) (key : String) : Option α :=
  if hasKey d key then dget d key else none

/-- Outcome of `MemoryGraphList.assign_property`: python `TypeError`
("Expected type list to assign graph properties.") or `ValueError`
("Can only store graph attributes from list with same length."). -/
inductive ListErr where
  | typeError
  | lengthMismatch
  deriving DecidableEq

/-- A python object passed as `value` to `MemoryGraphList.assign_property`:
`None`, a list, or a non-list ordered sequence such as a tuple or a numpy
array.  Elements are the per-record values, themselves possibly `None`. -/
inductive PyVal (α : Type) where
  | pynone
  | pylist (vs : List (Option α))
  | pytuple (vs : List (Option α))
  | pyarray (vs : List (Option α))
  deriving DecidableEq

/-- `MemoryGraphList.empty` (base.py lines 394-400): reset the internal list
to `length` fresh empty records. -/
def MemoryGraphList.empty {α : Type} (length : Nat) : List (Dict α) :=
  List.replicate length []

/-- `MemoryGraphList.assign_property` (base.py lines 324-336).  `None` is a
no-op; a non-list raises `TypeError`; an empty collection is first initialized
to `len(value)` blank records; a length mismatch raises `ValueError`.  Both
raises happen before any record is touched, so the error payload (the list at
the moment of the raise) equals the input list. -/
def MemoryGraphList.assign_property {α : Type} (l : List (Dict α)) (key : String)
    (value : PyVal α) : Except (ListErr × List (Dict α)) (List (Dict α)) :=
  match value with
  | .pynone => .ok l
  | .pytuple _ => .error (.typeError, l)
  | .pyarray _ => .error (.typeError, l)
  | .pylist vs =>
    let l1 : List (Dict α) := if l.length = 0 then MemoryGraphList.empty vs.length else l
    if l1.length ≠ vs.length then .error (.lengthMismatch, l1)
    else .ok ((l1.zip vs).map (fun gx => NumpyContainer.assign_property gx.1 key gx.2))

/-- `MemoryGraphList.obtain_property` (base.py lines 338-343): the list of
each record's value; if every record misses the key, a warning is logged and
`None` is returned instead of the all-`None` list. -/
def MemoryGraphList.obtain_property {α : Type} (l : List (Dict α)) (key : String) :
    Option (List (Option α)) :=
  let propList := l.map (fun g => NumpyContainer.obtain_property g key)
  if propList.all (fun x => x.isNone) then none else some propList

theorem dget_dset_self {α : Type} (d : Dict α) (k : String) (v : α) :
    dget (dset d k v) k = some v := by
  induction d with
  | nil => simp [dset, dget]
  | cons p t ih =>
    obtain ⟨k', w⟩ := p
    by_cases h : k' = k
    · simp [dset, dget, h]
    · simp [dset, dget, h, ih]

theorem dget_dset_ne {α : Type} (d : Dict α) (k q : String) (v : α) (h : q ≠ k) :
    dget (dset d k v) q = dget d q := by
  have h' : k ≠ q := Ne.symm h
  induction d with
  | nil => simp [dset, dget, h']
  | cons p t ih =>
    obtain ⟨k', w⟩ := p
    by_cases hk : k' = k
    · subst hk
      simp [dset, dget, h']
    · simp [dset, dget, hk, ih]

theorem obtain_dset_self {α : Type} (d : Dict α) (k : String) (v : α) :
    NumpyContainer.obtain_property (dset d k v) k = some v := by
  have h1 := dget_dset_self d k v
  simp [NumpyContainer.obtain_property, hasKey, h1]

/-- C8: on a single record, `assign_property` with `None` is a no-op, an
assignment to an existing key overwrites without error, and `obtain_property`
returns the stored array when the key is present and `None` when it is absent
(it is a total function, hence never raises). -/
theorem record_assign_obtain_contract {α : Type} (d : Dict α) (k : String) (v w : α) :
    NumpyContainer.assign_property d k none = d
    ∧ NumpyContainer.obtain_property (NumpyContainer.assign_property d k (some v)) k = some v
    ∧ NumpyContainer.obtain_property
        (NumpyContainer.assign_property (NumpyContainer.assign_property d k (some w)) k (some v)) k
        = some v
    ∧ (NumpyContainer.obtain_property d k = none ↔ dget d k = none) := by
  refine ⟨rfl, obtain_dset_self d k v, obtain_dset_self _ k v, ?_⟩
  cases hc : dget d k with
  | none => simp [NumpyContainer.obtain_property, hasKey, hc]
  | some u => simp [NumpyContainer.obtain_property, hasKey, hc]

/-- C10: a bulk assignment whose `value` is a non-null ordered sequence that
is not a python `list` (a tuple or a numpy array, here of any length, hence
in particular of matching length) raises `TypeError` before touching any
record, so the error payload is the unchanged collection. -/
theorem bulk_assign_rejects_non_list {α : Type} (l : List (Dict α)) (key : String)
    (vs : List (Option α)) :
    MemoryGraphList.assign_property l key (.pytuple vs) = .error (.typeError, l)
    ∧ MemoryGraphList.assign_property l key (.pyarray vs) = .error (.typeError, l) :=
  ⟨rfl, rfl⟩

theorem zip_blank_assign {α : Type} (key : String) (ws : List (Option α)) :
    ((List.replicate ws.length ([] : Dict α)).zip ws).map
        (fun gx => NumpyContainer.assign_property gx.1 key gx.2)
      = ws.map (fun x => NumpyContainer.assign_property [] key x) := by
  induction ws with
  | nil => rfl
  | cons x t ih => simp [List.replicate, ih]

/-- C5: a bulk assignment on a non-empty collection whose value list length
disagrees with the collection length raises `ValueError` (LengthMismatch)
with the collection untouched (the error payload is the input list and no
record has received the key); on an empty collection the list is first
initialized to `len(values)` blank records and each value is stored into its
record. -/
theorem bulk_assign_contract {α : Type} (l : List (Dict α)) (key : String)
    (vs ws : List (Option α)) (h1 : l ≠ []) (h2 : vs.length ≠ l.length) :
    MemoryGraphList.assign_property l key (.pylist vs) = .error (.lengthMismatch, l)
    ∧ MemoryGraphList.assign_property ([] : List (Dict α)) key (.pylist ws)
        = .ok (ws.map (fun x => NumpyContainer.assign_property [] key x))
    ∧ ∀ m, MemoryGraphList.assign_property ([] : List (Dict α)) key (.pylist ws) = .ok m →
        m.length = ws.length := by
  have hlen : l.length ≠ 0 := by
    intro h
    exact h1 (List.length_eq_zero.mp h)
  refine ⟨?_, ?_, ?_⟩
  · simp [MemoryGraphList.assign_property, hlen, Ne.symm h2]
  · simp [MemoryGraphList.assign_property, MemoryGraphList.empty, zip_blank_assign]
  · intro m hm
    simp [MemoryGraphList.assign_property, MemoryGraphList.empty, zip_blank_assign] at hm
    subst hm
    simp

/-- Witness for C5 at a concrete one-record collection and an empty value
list. -/
theorem bulk_assign_contract_witness :
    MemoryGraphList.assign_property [[("graph_labels", (1 : Int))]] "node_number"
        (.pylist [some 7, some 8]) = .error (.lengthMismatch, [[("graph_labels", (1 : Int))]])
    ∧ MemoryGraphList.assign_property ([] : List (Dict Int)) "node_number"
        (.pylist [some 7, some 8]) = .ok [[("node_number", 7)], [("node_number", 8)]] := by
  have h := bulk_assign_contract [[("graph_labels", (1 : Int))]] "node_number"
    [some 7, some 8] [some 7, some 8] (by decide) (by decide)
  exact ⟨h.1, h.2.1⟩

/-- `GraphNumpyContainer._find_graph_properties` (base.py lines 66-67): the
keys of the dict (in insertion order) whose leading characters equal the
given attribute prefix, python `prop_prefix == x[:len(prop_prefix)]`. -/
def findGraphProperties {α : Type} (d : Dict α) (pfx : String) : List String :=
  (d.map Prod.fst).filter (fun x => pfx = x.take pfx.length)

/-- The message of the `ValueError` raised by the topology operations,
python `"Can not operate on %s, as indices are not defined." % prefix`. -/
def opErrMsg (pfx : String) : String :=
  "Can not operate on " ++ pfx ++ ", as indices are not defined."

/-- Write a list of key/value pairs into a dict in order, python
`for i, at in enumerate(...): self._dict[at] = new_edges[i]`. -/
def setAll {α : Type} (d : Dict α) : List (String × α) → Dict α
  | [] => d
  | (k, v) :: t => setAll (dset d k v) t

/-- `GraphNumpyContainer._operate_on_edges` (base.py lines 69-95).  The
callable `operation` receives the values of all attributes whose key starts
with the prefix, indices first, and returns their replacements; the python
special case of a bare array returned when only indices exist is absorbed in
the list-to-list typing of `operation`.  Dict values are never `None` in the
model (python stores `np.array(value)`, never `None`), so the guard reduces
to key absence and the `not None` filters are identities.  The raise happens
before any mutation: the error payload is the unchanged record. -/
def operateOnEdges {α : Type} (g : Dict α) (operation : List α → List α) (pfx : String) :
    Except (String × Dict α) (Dict α) :=
  match dget g (pfx ++ "indices") with
  | none => .error (opErrMsg pfx, g)
  | some _ =>
    let linked := findGraphProperties g pfx
    let edgeLinked := (pfx ++ "indices") :: linked.filter (fun x => x ≠ pfx ++ "indices")
    let arrays := edgeLinked.filterMap (dget g)
    .ok (setAll g (edgeLinked.zip (operation arrays)))

/-- Modelled from the spec: `compute_reverse_edges_index_map` is imported by
base.py from `kgcnn.utils.adj`, a module absent from the sources; the spec
says it "finds the row index of the paired edge (j,i) in the same index
array", that "the first occurring row (in storage order) wins", and that the
`nan` sentinel (here `none`) marks edges without a reverse.  `firstRowIdx`
returns the index of the first row equal to the target. -/
def firstRowIdx (target : Nat × Nat) : List (Nat × Nat) → Option Nat
  | [] => none
  | f :: t => if f = target then some 0 else (firstRowIdx target t).map (· + 1)

/-- Modelled from the spec (see `firstRowIdx`): for each directed pair
`(i, j)` the row index of the first occurrence of `(j, i)`, `none` when no
reverse exists. -/
def compute_reverse_edges_index_map (idx : List (Nat × Nat)) : List (Option Nat) :=
  idx.map (fun e => firstRowIdx (e.2, e.1) idx)

/-- Value stored in a record operated on by `set_edge_indices_reverse`: an
integer index array of shape `(E, 2)` or the reverse-map column of shape
`(E, 1)` produced by `np.expand_dims(..., axis=-1)` with `nan` as `none`. -/
inductive RArr where
  | pairs (rows : List (Nat × Nat))
  | optcol (rows : List (List (Option Nat)))
  deriving DecidableEq

/-- `np.expand_dims(xs, axis=-1)`: shape `(E,)` to `(E, 1)`. -/
def expandDimsLast (xs : List (Option Nat)) : List (List (Option Nat)) :=
  xs.map (fun x => [x])

/-- Errors of `set_edge_indices_reverse`: the missing-indices `ValueError`,
or a dtype mismatch (unreachable for well-formed records, where the indices
key always holds a `(E, 2)` integer array). -/
inductive RevErr where
  | missingIndices (msg : String)
  | badDtype
  deriving DecidableEq

/-- `GraphNumpyContainer.set_edge_indices_reverse` (base.py lines 97-116):
guard on the indices key, then store the expanded reverse-edge map under
`<prefix>indices_reverse`.  The raise happens before any mutation: the error
payload is the unchanged record. -/
def set_edge_indices_reverse (g : Dict RArr) (pfx : String) :
    Except (RevErr × Dict RArr) (Dict RArr) :=
  match dget g (pfx ++ "indices") with
  | none => .error (.missingIndices (opErrMsg pfx), g)
  | some (.optcol _) => .error (.badDtype, g)
  | some (.pairs rows) =>
    .ok (dset g (pfx ++ "indices_reverse")
      (.optcol (expandDimsLast (compute_reverse_edges_index_map rows))))

/-- State of one `GraphNumpyContainer` with python object identity made
explicit: the dict maps keys to heap addresses, the heap maps addresses to
array values (of abstract type `V`), and `nextAddr` is the next fresh
address.  A plain python assignment `d[k1] = d[k2]` copies the address, not
the array, so the two keys alias. -/
structure PyState (V : Type) where
  dict : List (String × Nat)
  heap : List (Nat × V)
  nextAddr : Nat
  deriving DecidableEq

/-- Address bound to a key. -/
def dictGet {V : Type} (s : PyState V) (k : String) : Option Nat :=
  dget s.dict k

/-- `self._dict[k]` as the array value: resolve key to address to heap. -/
def readVal {V : Type} (s : PyState V) (k : String) : Option V :=
  (dget s.dict k).bind (fun a => dget s.heap a)

/-- Bind a key to a freshly allocated array object (the result of any numpy
expression, which always builds a new array). -/
def storeNew {V : Type} (s : PyState V) (k : String) (v : V) : PyState V :=
  { dict := dset s.dict k s.nextAddr
    heap := (s.nextAddr, v) :: s.heap
    nextAddr := s.nextAddr + 1 }

/-- In-place mutation of the array object at an address (e.g. numpy
`arr[...] = v`): every key bound to this address observes the new value. -/
def mutate {V : Type} (s : PyState V) (a : Nat) (v : V) : PyState V :=
  { s with heap := dset s.heap a v }

/-- Errors of `set_range_from_edges`: the missing-indices `ValueError`, or
the `KeyError` of line 202 reading the literal key `edge_indices` (reachable
only when called with a prefix other than `edge_` on a record without
`edge_indices`, or on a heap-dangling address, which no well-formed state
has). -/
inductive RangeErr where
  | missingIndices (pfx : String)
  | keyError
  deriving DecidableEq

/-- `GraphNumpyContainer.set_range_from_edges` (base.py lines 188-213).
Guard on `<prefix>indices`; then line 202 binds `range_indices` to the very
object bound to `edge_indices` (a plain dict assignment: same address, no
copy, despite the source comment); only then is the coordinates check done,
returning `self` with an advisory print when `node_coordinates` is absent.
On the success path the distance column is a fresh array.  The numeric
kernels live in numpy (`np.sqrt`, `np.sum`, `np.square`) and in the absent
module `kgcnn.utils.adj` (`invert_distance`), so they are opaque parameters:
`distK` maps the coordinate array and the index array to the distance
column, `invK` inverts it. -/
def set_range_from_edges {V : Type} (distK : V → V → V) (invK : V → V)
    (doInvertDistance : Bool) (pfx : String) (s : PyState V) :
    Except (RangeErr × PyState V) (PyState V) :=
  match dictGet s (pfx ++ "indices") with
  | none => .error (.missingIndices pfx, s)
  | some _ =>
    match dictGet s "edge_indices" with
    | none => .error (.keyError, s)
    | some aEdge =>
      let s1 : PyState V := { s with dict := dset s.dict "range_indices" aEdge }
      match readVal s1 "node_coordinates" with
      | none => .ok s1
      | some xyz =>
        match readVal s1 "range_indices" with
        | none => .error (.keyError, s1)
        | some idx =>
          let dist := distK xyz idx
          let dist2 := if doInvertDistance then invK dist else dist
          .ok (storeNew s1 "range_attributes" dist2)

/-- `GraphNumpyContainer.set_range` (base.py lines 215-250).  The
coordinates check comes first and returns `self` untouched when they are
absent.  The geometric computation (`coordinates_to_distancematrix` and
`define_adjacency_from_distance` from the absent module `kgcnn.utils.adj`,
masking, optional inversion, `np.expand_dims`) is the opaque kernel
`rangeK`, mapping the coordinate array to the pair of the masked distance
column (`range_attributes`) and the selected index array (`range_indices`),
stored in that order as two fresh arrays. -/
def set_range {V : Type} (rangeK : V → V × V) (s : PyState V) :
    Except (RangeErr × PyState V) (PyState V) :=
  match readVal s "node_coordinates" with
  | none => .ok s
  | some xyz =>
    let r := rangeK xyz
    let s1 := storeNew s "range_attributes" r.1
    .ok (storeNew s1 "range_indices" r.2)

/-- C7: a topology operation invoked with a prefix whose `<prefix>indices`
attribute is not set raises the `ValueError` whose message embeds the
offending prefix, and the raise precedes any mutation, so the record carried
by the error is exactly the input record: no attribute was modified.  Stated
for the shared wrapper `_operate_on_edges` (used by `make_undirected_edges`,
`add_edge_self_loops` and `sort_edge_indices` with their respective
operations), for `set_edge_indices_reverse`, and for `set_range_from_edges`;
`normalize_edge_weights_sym` and `set_angle` open with the identical guard. -/
theorem missing_indices_guard {α V : Type} (g : Dict α) (operation : List α → List α)
    (gr : Dict RArr) (s : PyState V) (distK : V → V → V) (invK : V → V)
    (doInv : Bool) (pfx : String)
    (h1 : dget g (pfx ++ "indices") = none)
    (h2 : dget gr (pfx ++ "indices") = none)
    (h3 : dictGet s (pfx ++ "indices") = none) :
    operateOnEdges g operation pfx = .error (opErrMsg pfx, g)
    ∧ set_edge_indices_reverse gr pfx = .error (.missingIndices (opErrMsg pfx), gr)
    ∧ set_range_from_edges distK invK doInv pfx s = .error (.missingIndices pfx, s)
    ∧ ∃ pre post, opErrMsg pfx = pre ++ (pfx ++ post) := by
  refine ⟨?_, ?_, ?_, "Can not operate on ", ", as indices are not defined.", ?_⟩
  · simp [operateOnEdges, h1]
  · simp [set_edge_indices_reverse, h2]
  · simp [set_range_from_edges, h3]
  · simp [opErrMsg, String.append_assoc]

/-- Witness for C7 at concrete records missing `edge_indices`. -/
theorem missing_indices_guard_witness :
    operateOnEdges [("node_number", (5 : Int))] id "edge_"
        = .error (opErrMsg "edge_", [("node_number", (5 : Int))])
    ∧ set_edge_indices_reverse [] "edge_" = .error (.missingIndices (opErrMsg "edge_"), [])
    ∧ set_range_from_edges (fun a _ => a) (fun a => a) false "edge_"
        ({ dict := [], heap := [], nextAddr := 0 } : PyState Nat)
      = .error (.missingIndices "edge_", { dict := [], heap := [], nextAddr := 0 }) := by
  have h := missing_indices_guard [("node_number", (5 : Int))] id ([] : Dict RArr)
    ({ dict := [], heap := [], nextAddr := 0 } : PyState Nat) (fun a _ => a) (fun a => a)
    false "edge_" (by decide) (by decide) (by decide)
  exact ⟨h.1, h.2.1, h.2.2.1⟩

theorem firstRowIdx_eq_some {t : Nat × Nat} {l : List (Nat × Nat)} {s : Nat}
    (h : firstRowIdx t l = some s) :
    l[s]? = some t ∧ ∀ u : Nat, u < s → l[u]? ≠ some t := by
  induction l generalizing s with
  | nil => simp [firstRowIdx] at h
  | cons f rest ih =>
    by_cases hf : f = t
    · rw [firstRowIdx, if_pos hf] at h
      have hs0 : s = 0 := (Option.some.inj h).symm
      subst hs0
      subst hf
      exact ⟨by simp, by omega⟩
    · rw [firstRowIdx, if_neg hf] at h
      obtain ⟨s', hs', hss⟩ := Option.map_eq_some'.mp h
      obtain ⟨ha, hb⟩ := ih hs'
      refine ⟨?_, ?_⟩
      · rw [← hss, List.getElem?_cons_succ]
        exact ha
      · intro u hu
        cases u with
        | zero =>
          simp only [List.getElem?_cons_zero]
          simpa using hf
        | succ u' =>
          rw [List.getElem?_cons_succ]
          exact hb u' (by omega)

theorem firstRowIdx_eq_none {t : Nat × Nat} {l : List (Nat × Nat)}
    (h : firstRowIdx t l = none) : ∀ u : Nat, l[u]? ≠ some t := by
  induction l with
  | nil => simp
  | cons f rest ih =>
    by_cases hf : f = t
    · rw [firstRowIdx, if_pos hf] at h
      exact Option.noConfusion h
    · rw [firstRowIdx, if_neg hf] at h
      have hrest : firstRowIdx t rest = none := by
        cases hc : firstRowIdx t rest with
        | none => rfl
        | some u => rw [hc] at h; simp at h
      intro u
      cases u with
      | zero =>
        simp only [List.getElem?_cons_zero]
        simpa using hf
      | succ u' =>
        rw [List.getElem?_cons_succ]
        exact ih hrest u'

theorem firstRowIdx_of_nodup {l : List (Nat × Nat)} {r : Nat} {v : Nat × Nat}
    (hn : l.Nodup) (hr : l[r]? = some v) : firstRowIdx v l = some r := by
  induction l generalizing r with
  | nil => simp at hr
  | cons f rest ih =>
    obtain ⟨hf, hrest⟩ := List.nodup_cons.mp hn
    cases r with
    | zero =>
      simp at hr
      simp [firstRowIdx, hr]
    | succ r' =>
      simp only [List.getElem?_cons_succ] at hr
      have hv : v ∈ rest := by
        have := List.getElem?_eq_some.mp hr
        obtain ⟨hlt, hget⟩ := this
        exact hget ▸ List.getElem_mem hlt
      have hfv : ¬ f = v := fun e => hf (e ▸ hv)
      simp [firstRowIdx, hfv, ih hrest hr]

/-- C2: the reverse-edge map sends row `r` holding `(i, j)` to the first row
(in storage order) holding `(j, i)`, or to the `nan` sentinel (`none`) when
no such row exists; on a duplicate-free (involutively paired) index array
following the map twice returns every paired edge to itself; and the spec
example `[[0,1],[1,0],[1,2]]` maps to `[1, 0, nan]`. -/
theorem reverse_edge_map_contract (idx : List (Nat × Nat)) (r s i j : Nat)
    (hr : idx[r]? = some (i, j)) :
    ((compute_reverse_edges_index_map idx)[r]? = some (some s) →
        idx[s]? = some (j, i) ∧ ∀ u : Nat, u < s → idx[u]? ≠ some (j, i))
    ∧ ((compute_reverse_edges_index_map idx)[r]? = some none →
        ∀ u : Nat, idx[u]? ≠ some (j, i))
    ∧ (idx.Nodup → (compute_reverse_edges_index_map idx)[r]? = some (some s) →
        (compute_reverse_edges_index_map idx)[s]? = some (some r))
    ∧ compute_reverse_edges_index_map [(0, 1), (1, 0), (1, 2)] = [some 1, some 0, none] := by
  have hmap : (compute_reverse_edges_index_map idx)[r]? = some (firstRowIdx (j, i) idx) := by
    simp [compute_reverse_edges_index_map, List.getElem?_map, hr]
  refine ⟨?_, ?_, ?_, by decide⟩
  · intro h
    rw [hmap] at h
    exact firstRowIdx_eq_some (Option.some.inj h)
  · intro h
    rw [hmap] at h
    exact firstRowIdx_eq_none (Option.some.inj h)
  · intro hn h
    rw [hmap] at h
    have hs := (firstRowIdx_eq_some (Option.some.inj h)).1
    have : (compute_reverse_edges_index_map idx)[s]? = some (firstRowIdx (i, j) idx) := by
      simp [compute_reverse_edges_index_map, List.getElem?_map, hs]
    rw [this, firstRowIdx_of_nodup hn hr]

/-- Witness for C2 at the spec example, row 0 against row 1. -/
theorem reverse_edge_map_instance :
    ([(0, 1), (1, 0), (1, 2)] : List (Nat × Nat))[1]? = some (1, 0)
    ∧ (compute_reverse_edges_index_map [(0, 1), (1, 0), (1, 2)])[1]? = some (some 0) := by
  have h := reverse_edge_map_contract [(0, 1), (1, 0), (1, 2)] 0 1 0 1 (by decide)
  exact ⟨(h.1 (by decide)).1, h.2.2.1 (by decide) (by decide)⟩

/-- C3 counterexample: on a record holding `edge_indices` (address 0) but no
`node_coordinates`, `set_range_from_edges` returns without raising, yet the
returned record has gained the attribute `range_indices` (bound at line 202
before the coordinates check), so the failed call did not leave the record
unmodified. -/
theorem set_range_missing_coords_cex :
    set_range_from_edges (fun a _ => a) (fun a => a) false "edge_"
        ({ dict := [("edge_indices", 0)], heap := [(0, 7)], nextAddr := 1 } : PyState Nat)
      = .ok { dict := [("edge_indices", 0), ("range_indices", 0)], heap := [(0, 7)], nextAddr := 1 }
    ∧ dictGet ({ dict := [("edge_indices", 0)], heap := [(0, 7)], nextAddr := 1 } : PyState Nat)
        "range_indices" = none := by
  exact ⟨rfl, rfl⟩

/-- C3 amended: when `node_coordinates` is absent, `set_range` logs the
advisory and returns the record with no attribute created or changed, while
`set_range_from_edges` logs the advisory and returns the record with exactly
one change, `range_indices` rebound to the object of `edge_indices` (bound
before the coordinates check): every other key keeps its binding and the
heap (hence every stored array, `range_attributes` in particular) is
untouched. -/
theorem set_range_missing_coords_amended {V : Type} (s : PyState V) (rangeK : V → V × V)
    (distK : V → V → V) (invK : V → V) (doInv : Bool) (aE : Nat)
    (hcoord : readVal s "node_coordinates" = none)
    (hidx : dictGet s "edge_indices" = some aE) :
    set_range rangeK s = .ok s
    ∧ set_range_from_edges distK invK doInv "edge_" s
        = .ok { s with dict := dset s.dict "range_indices" aE }
    ∧ (∀ k, k ≠ "range_indices" →
        dictGet ({ s with dict := dset s.dict "range_indices" aE } : PyState V) k = dictGet s k)
    ∧ ({ s with dict := dset s.dict "range_indices" aE } : PyState V).heap = s.heap := by
  have hguard : dictGet s ("edge_" ++ "indices") = some aE := hidx
  have hcoord1 : readVal ({ s with dict := dset s.dict "range_indices" aE } : PyState V)
      "node_coordinates" = none := by
    have hne : ("node_coordinates" : String) ≠ "range_indices" := by decide
    simp only [readVal, dictGet] at hcoord ⊢
    rw [dget_dset_ne s.dict "range_indices" "node_coordinates" aE hne]
    exact hcoord
  refine ⟨?_, ?_, ?_, rfl⟩
  · simp [set_range, hcoord]
  · simp only [set_range_from_edges, hguard, hidx, hcoord1]
  · intro k hk
    simp only [dictGet]
    exact dget_dset_ne s.dict "range_indices" k aE hk

/-- Witness for C3 at a concrete record with `edge_indices` and without
coordinates. -/
theorem set_range_missing_coords_instance :
    set_range (fun a => (a, a))
        ({ dict := [("edge_indices", 0)], heap := [(0, 7)], nextAddr := 1 } : PyState Nat)
      = .ok { dict := [("edge_indices", 0)], heap := [(0, 7)], nextAddr := 1 } := by
  have h := set_range_missing_coords_amended
    ({ dict := [("edge_indices", 0)], heap := [(0, 7)], nextAddr := 1 } : PyState Nat)
    (fun a => (a, a)) (fun a _ => a) (fun a => a) false 0 (by decide) (by decide)
  exact h.1

/-- Concrete record exhibiting the aliasing of base.py line 202:
`edge_indices` at address 0 (array value 5), `node_coordinates` at address 1
(array value 9). -/
def aliasDemo : PyState Nat :=
  { dict := [("edge_indices", 0), ("node_coordinates", 1)]
    heap := [(0, 5), (1, 9)]
    nextAddr := 2 }

/-- C4 (code bug): `set_range_from_edges` binds `range_indices` to the very
address of `edge_indices` — python `self._dict["range_indices"] =
self._dict["edge_indices"]` copies the reference although the adjacent
source comment says "We make a copy." — so after the call both keys resolve
to address 0 and an in-place mutation of the `edge_indices` array (value 5
overwritten by 77) is observed through `range_indices` as well: the storage
is not independent. -/
theorem set_range_from_edges_aliasing :
    set_range_from_edges (fun a _ => a + a) (fun a => a) false "edge_" aliasDemo
      = .ok { dict := [("edge_indices", 0), ("node_coordinates", 1), ("range_indices", 0),
                       ("range_attributes", 2)]
              heap := [(2, 18), (0, 5), (1, 9)]
              nextAddr := 3 }
    ∧ dictGet { dict := [("edge_indices", 0), ("node_coordinates", 1), ("range_indices", 0),
                         ("range_attributes", 2)]
                heap := [(2, 18), (0, 5), (1, 9)]
                nextAddr := 3 } "range_indices"
        = dictGet { dict := [("edge_indices", 0), ("node_coordinates", 1), ("range_indices", 0),
                             ("range_attributes", 2)]
                    heap := [(2, 18), (0, 5), (1, 9)]
                    nextAddr := 3 } "edge_indices"
    ∧ readVal (mutate { dict := [("edge_indices", 0), ("node_coordinates", 1),
                                 ("range_indices", 0), ("range_attributes", 2)]
                        heap := [(2, 18), (0, 5), (1, 9)]
                        nextAddr := 3 } 0 77) "edge_indices" = some 77
    ∧ readVal (mutate { dict := [("edge_indices", 0), ("node_coordinates", 1),
                                 ("range_indices", 0), ("range_attributes", 2)]
                        heap := [(2, 18), (0, 5), (1, 9)]
                        nextAddr := 3 } 0 77) "range_indices" = some 77 := by
  refine ⟨rfl, by decide, by decide, by decide⟩

/-- One graph as fed to the disjoint batch generators
(`experimental_tf_disjoint_list_generator` and `tf_disjoint_list_generator`,
loader.py): `numNodes` is the length of its node attribute array
(`count_nodes` entry) and `edgeIndices` its `(E, 2)` edge index array, each
row a pair of local node ids. -/
structure GraphIn where
  numNodes : Nat
  edgeIndices : List (Nat × Nat)
  deriving DecidableEq

/-- `np.cumsum`: running partial sums. -/
def cumsum : List Nat → List Nat
  | [] => []
  | x :: xs => x :: (cumsum xs).map (x + ·)

/-- `np.pad(np.cumsum(count_nodes), [[1, 0]])[:-1]` (loader.py lines 55-56 /
155-156): prepend a zero and drop the last entry, giving each graph the sum
of the node counts of all preceding graphs. -/
def nodeOffsets (countNodes : List Nat) : List Nat :=
  (0 :: cumsum countNodes).dropLast

/-- `np.repeat(node_splits[:-1], count_edges)`: the offset of each graph
repeated once per edge of that graph, concatenated. -/
def offsetEdgeIndices (countNodes countEdges : List Nat) : List Nat :=
  (((nodeOffsets countNodes).zip countEdges).map (fun p => List.replicate p.2 p.1)).flatten

/-- loader.py lines 49-57 / 150-157: the concatenated edge index arrays of
the batch plus (broadcast over both columns, `np.expand_dims(..., -1)`) the
per-edge node offsets. -/
def disjointIndices (graphs : List GraphIn) : List (Nat × Nat) :=
  List.zipWith (fun e o => (e.1 + o, e.2 + o))
    ((graphs.map GraphIn.edgeIndices).flatten)
    (offsetEdgeIndices (graphs.map GraphIn.numNodes)
      (graphs.map (fun gr => gr.edgeIndices.length)))

/-- `np.transpose` of an `(E, 2)` array: the `(2, E)` array whose two rows
are the two columns. -/
def npTranspose2 (rows : List (Nat × Nat)) : List Nat × List Nat :=
  (rows.map Prod.fst, rows.map Prod.snd)

/-- loader.py line 58 / 158: the disjoint index array is transposed before
being appended to the generator output. -/
def disjointIndicesOut (graphs : List GraphIn) : List Nat × List Nat :=
  npTranspose2 (disjointIndices graphs)

theorem nodeOffsets_cons (n : Nat) (cn : List Nat) :
    nodeOffsets (n :: cn) = 0 :: (nodeOffsets cn).map (n + ·) := by
  cases cn with
  | nil => rfl
  | cons c cs =>
    simp only [nodeOffsets, cumsum, List.map_dropLast, List.map_cons, Nat.add_zero,
      List.dropLast_cons₂]

theorem offsetEdgeIndices_cons (n c : Nat) (cn ce : List Nat) :
    offsetEdgeIndices (n :: cn) (c :: ce)
      = List.replicate c 0 ++ (offsetEdgeIndices cn ce).map (n + ·) := by
  simp only [offsetEdgeIndices, nodeOffsets_cons, List.zip_cons_cons, List.map_cons,
    List.flatten_cons, List.map_flatten]
  congr 1
  rw [List.zip_map_left]
  simp only [List.map_map]
  have hfun : ((fun p : Nat × Nat => List.replicate p.2 p.1) ∘ Prod.map (fun x => n + x) id)
      = ((List.map fun x => n + x) ∘ fun p : Nat × Nat => List.replicate p.2 p.1) := by
    funext p
    simp [Function.comp, Prod.map, List.map_replicate]
  rw [hfun]

theorem zipWith_offset_zero (l : List (Nat × Nat)) :
    List.zipWith (fun e o => (e.1 + o, e.2 + o)) l (List.replicate l.length 0) = l := by
  induction l with
  | nil => rfl
  | cons e t ih => simp [List.replicate, ih]

theorem disjointIndices_cons (x : GraphIn) (gs : List GraphIn) :
    disjointIndices (x :: gs)
      = x.edgeIndices
        ++ (disjointIndices gs).map (fun p => (p.1 + x.numNodes, p.2 + x.numNodes)) := by
  simp only [disjointIndices, List.map_cons, List.flatten_cons, offsetEdgeIndices_cons]
  rw [List.zipWith_append _ _ _ _ _ (by simp)]
  congr 1
  · exact zipWith_offset_zero _
  · rw [List.zipWith_map_right, List.map_zipWith]
    congr 1
    funext e o
    simp [Prod.ext_iff]
    omega

theorem disjointIndices_getElem : ∀ (graphs : List GraphIn) (g e : Nat) (gr : GraphIn)
    (ed : Nat × Nat), graphs[g]? = some gr → gr.edgeIndices[e]? = some ed →
    (disjointIndices graphs)[(((graphs.take g).map (fun x => x.edgeIndices.length)).sum + e)]?
      = some (ed.1 + ((graphs.take g).map GraphIn.numNodes).sum,
              ed.2 + ((graphs.take g).map GraphIn.numNodes).sum)
  | [], g, e, gr, ed, hg, he => by simp at hg
  | x :: gs, 0, e, gr, ed, hg, he => by
    rw [List.getElem?_cons_zero] at hg
    obtain rfl := Option.some.inj hg
    have hlt : e < x.edgeIndices.length := (List.getElem?_eq_some.mp he).1
    rw [disjointIndices_cons]
    simp only [List.take_zero, List.map_nil, List.sum_nil, Nat.zero_add, Nat.add_zero]
    rw [List.getElem?_append_left hlt, he]
  | x :: gs, g + 1, e, gr, ed, hg, he => by
    rw [List.getElem?_cons_succ] at hg
    have ihx := disjointIndices_getElem gs g e gr ed hg he
    rw [disjointIndices_cons, List.take_succ_cons]
    simp only [List.map_cons, List.sum_cons]
    have harr : x.edgeIndices.length + ((gs.take g).map (fun y => y.edgeIndices.length)).sum + e
        = x.edgeIndices.length + (((gs.take g).map (fun y => y.edgeIndices.length)).sum + e) := by
      omega
    rw [harr, List.getElem?_append_right (by omega)]
    simp only [Nat.add_sub_cancel_left, List.getElem?_map, ihx, Option.map_some]
    simp [Prod.ext_iff]
    omega

/-- C1: in the disjoint batch, the edge at local position `e` of the batch
member at position `g` appears at global row `(sum of edge counts of the
preceding members) + e` with the cumulative node offset (the sum of the node
counts of all preceding members) added to both of its columns; in
particular, batching graphs of 3 and 2 nodes, each with local edge `(0, 1)`,
yields the disjoint rows `(0, 1)` and `(3, 4)`. -/
theorem disjoint_batch_offset (graphs : List GraphIn) (g e : Nat) (gr : GraphIn)
    (ed : Nat × Nat) (hg : graphs[g]? = some gr) (he : gr.edgeIndices[e]? = some ed) :
    (disjointIndices graphs)[(((graphs.take g).map (fun x => x.edgeIndices.length)).sum + e)]?
      = some (ed.1 + ((graphs.take g).map GraphIn.numNodes).sum,
              ed.2 + ((graphs.take g).map GraphIn.numNodes).sum)
    ∧ disjointIndices [⟨3, [(0, 1)]⟩, ⟨2, [(0, 1)]⟩] = [(0, 1), (3, 4)] :=
  ⟨disjointIndices_getElem graphs g e gr ed hg he, by decide⟩

/-- Witness for C1 at the two-graph example: the second graph's edge lands
at global row 1 as `(3, 4)`. -/
theorem disjoint_batch_offset_witness :
    (disjointIndices [⟨3, [(0, 1)]⟩, ⟨2, [(0, 1)]⟩])[1]? = some (3, 4) := by
  have h := (disjoint_batch_offset [⟨3, [(0, 1)]⟩, ⟨2, [(0, 1)]⟩] 1 0 ⟨2, [(0, 1)]⟩ (0, 1)
    (by decide) (by decide)).1
  simpa using h

theorem disjointIndices_length (graphs : List GraphIn) :
    (disjointIndices graphs).length = (graphs.map (fun gr => gr.edgeIndices.length)).sum := by
  induction graphs with
  | nil => rfl
  | cons x gs ih => simp [disjointIndices_cons, ih]

/-- C9: the edge index array yielded by the batch generators is the
transpose of the stacked offset rows: a pair of rows (shape
`(2, total_edge_count)`), each of length the total edge count, whose entries
at position `k` are the two components of row `k` of the pre-transpose
disjoint array — whereas each per-graph input array is a list of
`edge_count` rows of two columns (`List (Nat × Nat)` of length
`edge_count`). -/
theorem disjoint_indices_transposed (graphs : List GraphIn) :
    (disjointIndicesOut graphs).1.length = (graphs.map (fun gr => gr.edgeIndices.length)).sum
    ∧ (disjointIndicesOut graphs).2.length = (graphs.map (fun gr => gr.edgeIndices.length)).sum
    ∧ ∀ k i j : Nat, (disjointIndices graphs)[k]? = some (i, j) ↔
        ((disjointIndicesOut graphs).1[k]? = some i
          ∧ (disjointIndicesOut graphs).2[k]? = some j) := by
  refine ⟨by simp [disjointIndicesOut, npTranspose2, disjointIndices_length],
    by simp [disjointIndicesOut, npTranspose2, disjointIndices_length], ?_⟩
  intro k i j
  simp only [disjointIndicesOut, npTranspose2, List.getElem?_map]
  cases h : (disjointIndices graphs)[k]? with
  | none => simp
  | some p => simp [Prod.ext_iff]

/-- The enumerate loop of `MemoryGraphList.clean` (base.py lines 444-450)
over one property list, with `n` the position of the head: a record is
invalid when its value is `None` (stored arrays are always indexable, so the
`hasattr` test only catches `None` in the model) or when its length is zero
(python `len(x) <= 0`). -/
def invalidFrom {β : Type} (n : Nat) : List (Option (List β)) → List Nat
  | [] => []
  | none :: t => n :: invalidFrom (n + 1) t
  | some arr :: t =>
    if arr.length ≤ 0 then n :: invalidFrom (n + 1) t else invalidFrom (n + 1) t

/-- base.py lines 434-450: invalid indices accumulated over all requested
items (an item given as a dict contributes its name; items are therefore
modelled by their name strings); a property set on no graph makes
`obtain_property` return `None` and is skipped with a warning (line 441). -/
def cleanInvalid {β : Type} (l : List (Dict (List β))) (inputs : List String) : List Nat :=
  inputs.foldl (fun acc item =>
    match MemoryGraphList.obtain_property l item with
    | none => acc
    | some props => acc ++ invalidFrom 0 props) []

/-- Insertion into a sorted duplicate-free ascending list, dropping an
already-present value. -/
def insertAsc (x : Nat) : List Nat → List Nat
  | [] => [x]
  | y :: ys => if x < y then x :: y :: ys else if x = y then y :: ys else y :: insertAsc x ys

/-- `np.unique`: the sorted ascending list of distinct values. -/
def npUnique : List Nat → List Nat
  | [] => []
  | x :: xs => insertAsc x (npUnique xs)

/-- `MemoryGraphList.clean` (base.py lines 433-456): pop the unique invalid
indices in descending order (`np.flip` of `np.unique`, then `list.pop`). -/
def MemoryGraphList.clean {β : Type} (l : List (Dict (List β))) (inputs : List String) :
    List (Dict (List β)) :=
  ((npUnique (cleanInvalid l inputs)).reverse).foldl (fun cur i => cur.eraseIdx i) l

/-- Specification-side removal: keep exactly the records whose position
(counting from `n` at the head) is not listed in `bad`, preserving the
relative order of the survivors. -/
def keepIdx {γ : Type} (n : Nat) (bad : List Nat) : List γ → List γ
  | [] => []
  | x :: t => if n ∈ bad then keepIdx (n + 1) bad t else x :: keepIdx (n + 1) bad t

theorem keepIdx_of_forall_lt {γ : Type} (l : List γ) (bad : List Nat) (n : Nat)
    (h : ∀ x ∈ bad, x < n) : keepIdx n bad l = l := by
  induction l generalizing n with
  | nil => rfl
  | cons a t ih =>
    have hn : n ∉ bad := fun hmem => absurd (h n hmem) (by omega)
    have hrec := ih (n + 1) (fun x hx => Nat.lt_succ_of_lt (h x hx))
    simp [keepIdx, hn, hrec]

theorem keepIdx_cons_out {γ : Type} (l : List γ) (bad : List Nat) (d : Nat) : ∀ n : Nat,
    d < n ∨ n + l.length ≤ d → keepIdx n (d :: bad) l = keepIdx n bad l := by
  induction l with
  | nil => intro n _; rfl
  | cons a t ih =>
    intro n h
    have hnd : ¬ n = d := by
      rcases h with h | h
      · omega
      · simp only [List.length_cons] at h
        omega
    have hnext : d < n + 1 ∨ (n + 1) + t.length ≤ d := by
      rcases h with h | h
      · exact Or.inl (by omega)
      · simp only [List.length_cons] at h
        exact Or.inr (by omega)
    by_cases hb : n ∈ bad
    · have hmem : n ∈ d :: bad := List.mem_cons_of_mem _ hb
      simp [keepIdx, hb, hmem, ih (n + 1) hnext]
    · have hmem : n ∉ d :: bad := by
        simp [List.mem_cons, hnd, hb]
      simp [keepIdx, hb, hmem, ih (n + 1) hnext]

theorem keepIdx_append {γ : Type} (a b : List γ) (bad : List Nat) : ∀ n : Nat,
    keepIdx n bad (a ++ b) = keepIdx n bad a ++ keepIdx (n + a.length) bad b := by
  induction a with
  | nil => intro n; simp [keepIdx]
  | cons x t ih =>
    intro n
    have harith : n + (t.length + 1) = (n + 1) + t.length := by omega
    by_cases hn : n ∈ bad <;> simp [keepIdx, hn, ih (n + 1), harith]

theorem keepIdx_congr {γ : Type} (l : List γ) (bad bad' : List Nat)
    (h : ∀ x : Nat, x ∈ bad ↔ x ∈ bad') : ∀ n : Nat, keepIdx n bad l = keepIdx n bad' l := by
  induction l with
  | nil => intro n; rfl
  | cons a t ih =>
    intro n
    by_cases hn : n ∈ bad
    · have hn' := (h n).mp hn
      simp [keepIdx, hn, hn', ih (n + 1)]
    · have hn' : n ∉ bad' := fun hc => hn ((h n).mpr hc)
      simp [keepIdx, hn, hn', ih (n + 1)]

theorem mem_insertAsc (x a : Nat) (l : List Nat) : a ∈ insertAsc x l ↔ a = x ∨ a ∈ l := by
  induction l with
  | nil => simp [insertAsc]
  | cons y ys ih =>
    by_cases h1 : x < y
    · simp [insertAsc, h1]
    · by_cases h2 : x = y
      · subst h2
        rw [insertAsc, if_neg h1, if_pos rfl]
        simp only [List.mem_cons]
        tauto
      · simp only [insertAsc, if_neg h1, if_neg h2, List.mem_cons, ih]
        tauto

theorem sorted_insertAsc (x : Nat) (l : List Nat) (h : List.Sorted (· < ·) l) :
    List.Sorted (· < ·) (insertAsc x l) := by
  induction l with
  | nil => simp [insertAsc]
  | cons y ys ih =>
    obtain ⟨hy, hys⟩ := List.sorted_cons.mp h
    by_cases h1 : x < y
    · rw [insertAsc, if_pos h1]
      refine List.sorted_cons.mpr ⟨?_, h⟩
      intro b hb
      rcases List.mem_cons.mp hb with rfl | hb'
      · exact h1
      · exact h1.trans (hy b hb')
    · by_cases h2 : x = y
      · rw [insertAsc, if_neg h1, if_pos h2]
        exact h
      · have hyx : y < x := by omega
        rw [insertAsc, if_neg h1, if_neg h2]
        refine List.sorted_cons.mpr ⟨?_, ih hys⟩
        intro b hb
        rcases (mem_insertAsc x b ys).mp hb with rfl | hb'
        · exact hyx
        · exact hy b hb'

theorem sorted_npUnique (xs : List Nat) : List.Sorted (· < ·) (npUnique xs) := by
  induction xs with
  | nil => simp [npUnique]
  | cons x t ih => exact sorted_insertAsc x (npUnique t) ih

theorem mem_npUnique (a : Nat) (xs : List Nat) : a ∈ npUnique xs ↔ a ∈ xs := by
  induction xs with
  | nil => simp [npUnique]
  | cons x t ih =>
    simp only [npUnique, mem_insertAsc, ih, List.mem_cons]

theorem foldl_eraseIdx_keepIdx {γ : Type} : ∀ (ds : List Nat) (l : List γ),
    List.Sorted (· > ·) ds →
    ds.foldl (fun cur i => cur.eraseIdx i) l = keepIdx 0 ds l
  | [], l, _ => by
    rw [List.foldl_nil, keepIdx_of_forall_lt l [] 0 (by simp)]
  | d :: ds, l, hs => by
    obtain ⟨hall, hds⟩ := List.sorted_cons.mp hs
    rw [List.foldl_cons, foldl_eraseIdx_keepIdx ds (l.eraseIdx d) hds]
    by_cases hd : d < l.length
    · have htl : (l.take d).length = d := List.length_take_of_le (by omega)
      have hdec : l = l.take d ++ (l[d] :: l.drop (d + 1)) := by
        conv_lhs => rw [← List.take_append_drop d l]
        rw [List.drop_eq_getElem_cons hd]
      have hlt : ∀ x ∈ ds, x < d := fun x hx => hall x hx
      calc keepIdx 0 ds (l.eraseIdx d)
          = keepIdx 0 ds (l.take d) ++ keepIdx d ds (l.drop (d + 1)) := by
            rw [List.eraseIdx_eq_take_drop_succ, keepIdx_append, htl, Nat.zero_add]
        _ = keepIdx 0 ds (l.take d) ++ l.drop (d + 1) := by
            rw [keepIdx_of_forall_lt _ ds d hlt]
        _ = keepIdx 0 (d :: ds) l := by
            conv_rhs => rw [hdec]
            rw [keepIdx_append, htl, Nat.zero_add,
              keepIdx_cons_out (l.take d) ds d 0 (Or.inr (by omega))]
            congr 1
            simp only [keepIdx]
            rw [if_pos (List.mem_cons_self d ds),
              keepIdx_cons_out (l.drop (d + 1)) ds d (d + 1) (Or.inl (by omega)),
              keepIdx_of_forall_lt _ ds (d + 1) (fun x hx => by have := hall x hx; omega)]
    · have hge : l.length ≤ d := by omega
      rw [List.eraseIdx_of_length_le hge,
        keepIdx_cons_out l ds d 0 (Or.inr (by omega))]

theorem sorted_gt_reverse_npUnique (xs : List Nat) :
    List.Sorted (· > ·) (npUnique xs).reverse :=
  List.pairwise_reverse.mpr (sorted_npUnique xs)

theorem mem_invalidFrom {β : Type} (props : List (Option (List β))) (i : Nat) : ∀ n : Nat,
    i ∈ invalidFrom n props
      ↔ ∃ j : Nat, i = n + j ∧ (props[j]? = some none
          ∨ ∃ arr : List β, props[j]? = some (some arr) ∧ arr.length = 0) := by
  induction props with
  | nil =>
    intro n
    simp [invalidFrom]
  | cons p t ih =>
    intro n
    cases p with
    | none =>
      rw [invalidFrom]
      simp only [List.mem_cons, ih (n + 1)]
      constructor
      · rintro (rfl | ⟨j, rfl, hj⟩)
        · exact ⟨0, by omega, Or.inl (by simp)⟩
        · exact ⟨j + 1, by omega, by simpa [List.getElem?_cons_succ] using hj⟩
      · rintro ⟨j, rfl, hj⟩
        cases j with
        | zero => exact Or.inl (by omega)
        | succ j' =>
          exact Or.inr ⟨j', by omega, by simpa [List.getElem?_cons_succ] using hj⟩
    | some arr =>
      by_cases hlen : arr.length ≤ 0
      · rw [invalidFrom, if_pos hlen]
        simp only [List.mem_cons, ih (n + 1)]
        constructor
        · rintro (rfl | ⟨j, rfl, hj⟩)
          · exact ⟨0, by omega, Or.inr ⟨arr, by simp, by omega⟩⟩
          · exact ⟨j + 1, by omega, by simpa [List.getElem?_cons_succ] using hj⟩
        · rintro ⟨j, rfl, hj⟩
          cases j with
          | zero => exact Or.inl (by omega)
          | succ j' =>
            exact Or.inr ⟨j', by omega, by simpa [List.getElem?_cons_succ] using hj⟩
      · rw [invalidFrom, if_neg hlen]
        rw [ih (n + 1)]
        constructor
        · rintro ⟨j, rfl, hj⟩
          exact ⟨j + 1, by omega, by simpa [List.getElem?_cons_succ] using hj⟩
        · rintro ⟨j, rfl, hj⟩
          cases j with
          | zero =>
            exfalso
            rcases hj with h0 | ⟨arr', ha, hb⟩
            · simp at h0
            · simp only [List.getElem?_cons_zero, Option.some.injEq] at ha
              obtain rfl := ha
              omega
          | succ j' =>
            exact ⟨j', by omega, by simpa [List.getElem?_cons_succ] using hj⟩

theorem cleanInvalid_mem {β : Type} (l : List (Dict (List β))) (inputs : List String) (i : Nat) :
    i ∈ cleanInvalid l inputs ↔ ∃ key, key ∈ inputs
      ∧ ∃ props, MemoryGraphList.obtain_property l key = some props
      ∧ i ∈ invalidFrom 0 props := by
  suffices h : ∀ acc : List Nat,
      (i ∈ inputs.foldl (fun acc item =>
          match MemoryGraphList.obtain_property l item with
          | none => acc
          | some props => acc ++ invalidFrom 0 props) acc
        ↔ i ∈ acc ∨ ∃ key, key ∈ inputs
            ∧ ∃ props, MemoryGraphList.obtain_property l key = some props
            ∧ i ∈ invalidFrom 0 props) by
    have hh := h []
    simpa [cleanInvalid] using hh
  induction inputs with
  | nil =>
    intro acc
    simp
  | cons it rest ih =>
    intro acc
    rw [List.foldl_cons]
    cases hob : MemoryGraphList.obtain_property l it with
    | none =>
      simp only [hob]
      rw [ih acc]
      constructor
      · rintro (ha | ⟨key, hk, r⟩)
        · exact Or.inl ha
        · exact Or.inr ⟨key, List.mem_cons_of_mem _ hk, r⟩
      · rintro (ha | ⟨key, hk, props, hp, hi⟩)
        · exact Or.inl ha
        · rcases List.mem_cons.mp hk with rfl | hk'
          · rw [hob] at hp
            exact absurd hp (by simp)
          · exact Or.inr ⟨key, hk', props, hp, hi⟩
    | some props0 =>
      simp only [hob]
      rw [ih (acc ++ invalidFrom 0 props0)]
      simp only [List.mem_append]
      constructor
      · rintro ((ha | hv) | ⟨key, hk, r⟩)
        · exact Or.inl ha
        · exact Or.inr ⟨it, List.mem_cons_self it rest, props0, hob, hv⟩
        · exact Or.inr ⟨key, List.mem_cons_of_mem _ hk, r⟩
      · rintro (ha | ⟨key, hk, props, hp, hi⟩)
        · exact Or.inl (Or.inl ha)
        · rcases List.mem_cons.mp hk with rfl | hk'
          · rw [hob] at hp
            obtain rfl := Option.some.inj hp
            exact Or.inl (Or.inr hi)
          · exact Or.inr ⟨key, hk', props, hp, hi⟩

/-- C6 counterexample: a one-record collection whose record lacks the
required key.  The record's value for the key is null, so the claim says the
record is removed; but `obtain_property` returns the all-unset sentinel
`None` for this key, `clean` skips it with a warning (base.py line 441), and
the record survives. -/
theorem clean_all_null_key_cex :
    MemoryGraphList.clean [([] : Dict (List Int))] ["x"] = [([] : Dict (List Int))]
    ∧ NumpyContainer.obtain_property ([] : Dict (List Int)) "x" = none :=
  ⟨rfl, rfl⟩

/-- C6 amended: for every key that is set on at least one record
(`obtain_property` returns a value list), `clean` marks as invalid exactly
the indices whose value is null or zero-length (stored arrays are always
indexable); a key set on no record is skipped entirely and marks nothing;
the union of invalid indices over all keys is removed by popping in
descending order, which keeps exactly the non-invalid records in their
original relative order (`keepIdx`); in particular the 3-record collection
whose middle record lacks the required attribute reduces to records 0 and 2
in order. -/
theorem clean_amended_contract {β : Type} (l : List (Dict (List β))) (inputs : List String) :
    (∀ i : Nat, i ∈ cleanInvalid l inputs ↔ ∃ key, key ∈ inputs
        ∧ ∃ props, MemoryGraphList.obtain_property l key = some props
        ∧ (props[i]? = some none ∨ ∃ arr : List β, props[i]? = some (some arr) ∧ arr.length = 0))
    ∧ MemoryGraphList.clean l inputs = keepIdx 0 (cleanInvalid l inputs) l
    ∧ MemoryGraphList.clean [[("node_attributes", [(1 : Int)])], [], [("node_attributes", [2])]]
        ["node_attributes"]
        = [[("node_attributes", [(1 : Int)])], [("node_attributes", [2])]] := by
  refine ⟨?_, ?_, by decide⟩
  · intro i
    rw [cleanInvalid_mem]
    constructor
    · rintro ⟨key, hk, props, hp, hi⟩
      obtain ⟨j, hij, hj⟩ := (mem_invalidFrom props i 0).mp hi
      have hji : j = i := by omega
      subst hji
      exact ⟨key, hk, props, hp, hj⟩
    · rintro ⟨key, hk, props, hp, hj⟩
      exact ⟨key, hk, props, hp, (mem_invalidFrom props i 0).mpr ⟨i, by omega, hj⟩⟩
  · rw [MemoryGraphList.clean,
      foldl_eraseIdx_keepIdx _ l (sorted_gt_reverse_npUnique _)]
    exact keepIdx_congr l _ _
      (fun x => by rw [List.mem_reverse, mem_npUnique]) 0
